import Mathlib

/-!
Shallow embedding of the tpch-dbgen benchmark harness, consisting of the two
scripts `execute_tpch_queries.py` and `warmup_tpch.py`.

Python text is modelled as `List Char`.  The query-file loader
(`read_query_file`, identical in both scripts), the instrumentation
controller (`activate_dcsim` / `deactivate_dcsim`), the fixed-iteration
warmup (`warmup_phase`), the execution controller (`run_tpch_queries`), the
top-level driver (`main`) and the adaptive warmup (`warmup_queries` of
`warmup_tpch.py`) are each translated into executable Lean definitions, with
the external collaborators (file system, database session, memory probe)
abstracted as environment parameters.
-/

namespace TpchDbgen

/-! ### Text model: Python strings as lists of characters -/

/-- The ASCII whitespace characters recognised by Python's `str.strip()`. -/
def pyIsSpace (c : Char) : Bool :=
  c = ' ' || c = '\t' || c = '\n' || c = '\r' || c = '\x0b' || c = '\x0c'

/-- Removal of trailing whitespace, the right half of `str.strip()`. -/
def stripRight (l : List Char) : List Char :=
  (l.reverse.dropWhile pyIsSpace).reverse

/-- Python `line.strip()`: drop leading and trailing whitespace. -/
def pyStrip (l : List Char) : List Char :=
  stripRight (l.dropWhile pyIsSpace)

/-- Python `f.readlines()`: split the text into lines, each line keeping its
terminating newline when present. -/
def splitLines : List Char → List (List Char)
  | [] => []
  | c :: rest =>
    if c = '\n' then [c] :: splitLines rest
    else
      match splitLines rest with
      | [] => [[c]]
      | l :: ls => (c :: l) :: ls

/-- Python `s.startswith(p)`. -/
def startsWith (p l : List Char) : Bool := p.isPrefixOf l

/-- The line filter of `read_query_file` (lines 28–34 of
`execute_tpch_queries.py`, lines 40–46 of `warmup_tpch.py`): a raw line is
appended to `sql_lines` exactly when its stripped form is non-empty and does
not start with `:`, with `\x7b`, or with `--`. -/
def keepLine (line : List Char) : Bool :=
  let stripped := pyStrip line
  if !stripped.isEmpty && !startsWith [':'] stripped then
    if !startsWith ['\x7b'] stripped && !startsWith ['-', '-'] stripped then
      true
    else false
  else false

/-- Python `s.replace(tok, new)` specialised to a two-character pattern
`[a, b]`: scan left to right, replacing non-overlapping occurrences. -/
def replaceTok (a b : Char) (new : List Char) : List Char → List Char
  | [] => []
  | [c] => [c]
  | c :: d :: rest =>
    if c = a ∧ d = b then new ++ replaceTok a b new rest
    else c :: replaceTok a b new (d :: rest)

/-- `read_query_file` (identical in both scripts), acting on the raw file
text: filter the lines, join them, then substitute `:1`→`90`, `:2`→`15`,
`:3`→`3` in that order. -/
def read_query_file (text : List Char) : List Char :=
  let sql_lines := (splitLines text).filter keepLine
  let query := sql_lines.flatten
  let query1 := replaceTok ':' '1' ['9', '0'] query
  let query2 := replaceTok ':' '2' ['1', '5'] query1
  replaceTok ':' '3' ['3'] query2

/-- Occurrence test for the two-character token `[a, b]`, used to state when
`replaceTok` is the identity. -/
def hasTok (a b : Char) : List Char → Bool
  | [] => false
  | [_] => false
  | c :: d :: rest => (c = a && d = b) || hasTok a b (d :: rest)

/-- The three fixed placeholder substitutions of `read_query_file`,
applied in the source order `:1`→`90`, `:2`→`15`, `:3`→`3`. -/
def substTokens (q : List Char) : List Char :=
  replaceTok ':' '3' ['3']
    (replaceTok ':' '2' ['1', '5'] (replaceTok ':' '1' ['9', '0'] q))

/-- The line filter exactly as claim C6 states it: discard precisely the
lines whose trimmed form starts with `:`, with `\x7b`, or with `--`
(blank lines are not mentioned, hence kept). -/
def keepLineClaimed (line : List Char) : Bool :=
  let stripped := pyStrip line
  !startsWith [':'] stripped && !startsWith ['\x7b'] stripped
    && !startsWith ['-', '-'] stripped

/-- The loader as claim C6 describes it. -/
def read_query_file_claimed (text : List Char) : List Char :=
  substTokens ((splitLines text).filter keepLineClaimed).flatten

/-- The line filter as claim C6 must be amended: additionally discard
every line whose trimmed form is empty. -/
def keepLineAmended (line : List Char) : Bool :=
  !(pyStrip line).isEmpty && keepLineClaimed line

/-! ### Instrumentation controller (`activate_dcsim`, lines 46–57) -/

/-- Session-level calls observable through the Session Gateway. -/
inductive SCall
  | execCall (sql : String)
  | commitCall
  | errLog
  | curClose
deriving DecidableEq

def startSimSQL : String := "SELECT dcsim_start_simulation();"

/-- `activate_dcsim` (lines 46–57): open a cursor, execute the
start-of-window call, commit; on an exception of either step, log and
re-raise; close the cursor in the `finally`.  The two environment
parameters say whether the execute and the commit raise. -/
def activate_dcsim (execFail commitFail : Option String) :
    List SCall × Option String :=
  match execFail with
  | some e => ([.execCall startSimSQL, .errLog, .curClose], some e)
  | none =>
    match commitFail with
    | some e => ([.execCall startSimSQL, .commitCall, .errLog, .curClose],
        some e)
    | none => ([.execCall startSimSQL, .commitCall, .curClose], none)

/-- Database-visible calls (executes and commits), as opposed to local
cursor bookkeeping and logging. -/
def isDbCall : SCall → Bool
  | .execCall _ => true
  | .commitCall => true
  | _ => false

/-- The successful-activation trace shape asserted by claim C4: an
(idempotent) provisioning call, a commit, a start-of-window call, and a
second commit. -/
def ActivateClaimShape (t : List SCall) : Prop :=
  ∃ p s : String, t.filter isDbCall
    = [SCall.execCall p, SCall.commitCall, SCall.execCall s, SCall.commitCall]

/-! ### Top-level driver (`main`, lines 252–294) -/

/-- Exceptions at the driver level: a user interruption
(`KeyboardInterrupt`) or an ordinary failure. -/
inductive Exc
  | interrupt
  | failure (msg : String)
deriving DecidableEq

/-- Phase-level events of the driver. -/
inductive MEvent
  | warmupCall
  | activateCall
  | runCall
  | deactCall
  | deactFailLog
  | reportCall
  | saveCall
  | closeConn
deriving DecidableEq

/-- Failure-injection environment for the driver: which phase raises, and
which invocation of `deactivate_dcsim` (by invocation index) raises. -/
structure MainEnv where
  skipWarmup : Bool
  warmupExc : Option Exc
  activateExc : Option Exc
  runExc : Option Exc
  deactExc : ℕ → Option Exc
  hasOutput : Bool

/-- `deactivate_dcsim` (lines 59–70) at driver granularity: it performs the
end-of-window call and, on failure, logs (`TPCH ERROR: Failed to end
simulation`) before re-raising. -/
def deactivate_dcsim (env : MainEnv) (k : ℕ) : List MEvent × Option Exc :=
  match env.deactExc k with
  | none => ([.deactCall], none)
  | some e => ([.deactCall, .deactFailLog], some e)

/-- The body of `main`'s outer `try` block (lines 252–272): warmup (unless
skipped), activate, run, deactivate, print the summary, optionally save.
Returns the events performed, the number of deactivate invocations made so
far, and the exception escaping the block, if any. -/
def mainTryBody (env : MainEnv) : List MEvent × ℕ × Option Exc :=
  if env.skipWarmup = false ∧ env.warmupExc.isSome then
    ([.warmupCall], 0, env.warmupExc)
  else
    let w : List MEvent := if env.skipWarmup then [] else [.warmupCall]
    match env.activateExc with
    | some e => (w ++ [.activateCall], 0, some e)
    | none =>
      match env.runExc with
      | some e => (w ++ [.activateCall, .runCall], 0, some e)
      | none =>
        match deactivate_dcsim env 0 with
        | (dev, some e) =>
          (w ++ [.activateCall, .runCall] ++ dev, 1, some e)
        | (dev, none) =>
          (w ++ [.activateCall, .runCall] ++ dev ++ [.reportCall]
              ++ (if env.hasOutput then [.saveCall] else []),
            1, none)

/-- `main` (lines 252–294): run the `try` body; on a `KeyboardInterrupt`
or any other exception, attempt one more deactivation whose own failure is
swallowed (`except: pass`), report the original exception, and return exit
code 1; close the connection in the `finally` on every path.  Returns the
exit code, the exception reported as the run's outcome, and the trace. -/
def main (env : MainEnv) : ℕ × Option Exc × List MEvent :=
  match mainTryBody env with
  | (ev, _, none) => (0, none, ev ++ [.closeConn])
  | (ev, k, some e) =>
    let dev := (deactivate_dcsim env k).1
    (1, some e, ev ++ dev ++ [.closeConn])

/-- The driver environment used as concrete witness input: warmup enabled
and clean, activation clean, the Execution Controller raising `boom`, and
every deactivation attempt failing with `dfail`. -/
def mainWitnessEnv : MainEnv where
  skipWarmup := false
  warmupExc := none
  activateExc := none
  runExc := some (.failure "boom")
  deactExc := fun _ => some (.failure "dfail")
  hasOutput := false

/-! ### Execution controller (`run_tpch_queries`, lines 114–164) -/

/-- Per-query outcome as stored in the `results` dictionary: a successful
entry records time/rows/success, a failed entry records zero time, zero
rows, and the error string. -/
structure Outcome where
  time : ℚ
  rows : ℕ
  success : Bool
  error : Option String
deriving DecidableEq

/-- Environment of the execution controller: which query files are present
in storage, what executing each query yields (row count or error), and the
wall-clock duration measured for each query. -/
structure ExecEnv where
  present : ℕ → Bool
  execRes : ℕ → Except String ℕ
  elapsed : ℕ → ℚ

/-- Observable events of the execution controller. -/
inductive XEvent
  | warnSkip (q : ℕ)
  | execAttempt (q : ℕ)
  | rollbackEv
  | commitEv
deriving DecidableEq

/-- Python dictionary assignment `results[qnum] = v`: overwrite in place if
the key exists, otherwise append. -/
def dictInsert (k : ℕ) (v : Outcome) :
    List (ℕ × Outcome) → List (ℕ × Outcome)
  | [] => [(k, v)]
  | (k', v') :: rest =>
    if k' = k then (k', v) :: rest else (k', v') :: dictInsert k v rest

/-- One iteration of the query loop (lines 129–161): skip a missing file
with a warning; otherwise execute, recording a Success outcome, or catch
the error, record a Failed outcome and roll back; commit in both executed
cases. -/
def runQueryStep (env : ExecEnv) (q : ℕ) (results : List (ℕ × Outcome)) :
    List (ℕ × Outcome) × List XEvent :=
  if env.present q = false then (results, [.warnSkip q])
  else
    match env.execRes q with
    | .ok n =>
      (dictInsert q ⟨env.elapsed q, n, true, none⟩ results,
        [.execAttempt q, .commitEv])
    | .error e =>
      (dictInsert q ⟨0, 0, false, some e⟩ results,
        [.execAttempt q, .rollbackEv, .commitEv])

/-- The query loop of `run_tpch_queries`. -/
def runQueriesLoop (env : ExecEnv) :
    List ℕ → List (ℕ × Outcome) → List (ℕ × Outcome) × List XEvent
  | [], results => (results, [])
  | q :: qs, results =>
    let p := runQueryStep env q results
    let p' := runQueriesLoop env qs p.1
    (p'.1, p.2 ++ p'.2)

/-- `run_tpch_queries` (lines 114–164): default the selection to `1..22`,
then run the loop starting from an empty results dictionary. -/
def run_tpch_queries (env : ExecEnv) (queries_to_run : Option (List ℕ)) :
    List (ℕ × Outcome) × List XEvent :=
  let qs := match queries_to_run with
    | none => List.range' 1 22
    | some l => l
  runQueriesLoop env qs []

/-! ### Fixed-iteration warmup (`warmup_phase`, lines 72–112) -/

/-- Environment of the fixed-iteration warmup: file presence, and success
or failure of each execution attempt, indexed by a global attempt
counter. -/
structure PhaseEnv where
  present : ℕ → Bool
  execOk : ℕ → Bool

/-- Events of the fixed-iteration warmup. -/
inductive PEvent
  | execAttempt (q : ℕ)
  | rollbackEv
  | commitEv
deriving DecidableEq

/-- The warmup selection (lines 78–83): the representative subset
`[1, 3, 6, 12, 14]` intersected with the requested selection (defaulting
to `1..22`). -/
def warmupSelection (queries_to_run : Option (List ℕ)) : List ℕ :=
  let qs := match queries_to_run with
    | none => List.range' 1 22
    | some l => l
  [1, 3, 6, 12, 14].filter fun q => qs.contains q

/-- One warmup query (lines 92–107): skip a missing file silently;
otherwise attempt the execution, rolling back on failure. -/
def warmupQueryStep (env : PhaseEnv) (k : ℕ) (q : ℕ) : List PEvent × ℕ :=
  if env.present q = false then ([], k)
  else if env.execOk k then ([.execAttempt q], k + 1)
  else ([.execAttempt q, .rollbackEv], k + 1)

/-- One warmup iteration over the selected subset. -/
def warmupRoundLoop (env : PhaseEnv) : List ℕ → ℕ → List PEvent × ℕ
  | [], k => ([], k)
  | q :: qs, k =>
    let p := warmupQueryStep env k q
    let p' := warmupRoundLoop env qs p.2
    (p.1 ++ p'.1, p'.2)

/-- The iteration loop of `warmup_phase`, committing once per iteration
(line 109). -/
def warmupIterLoop (env : PhaseEnv) (sub : List ℕ) : ℕ → ℕ → List PEvent
  | 0, _ => []
  | i + 1, k =>
    let p := warmupRoundLoop env sub k
    p.1 ++ [.commitEv] ++ warmupIterLoop env sub i p.2

/-- `warmup_phase` (lines 72–112). -/
def warmup_phase (env : PhaseEnv) (queries_to_run : Option (List ℕ))
    (warmup_iterations : ℕ) : List PEvent :=
  warmupIterLoop env (warmupSelection queries_to_run) warmup_iterations 0

/-- Recognizer for execution-attempt events of the fixed warmup. -/
def isExecAttempt : PEvent → Bool
  | .execAttempt _ => true
  | _ => false

/-- The attempt count asserted by claim C7, read literally:
`iterations × |subset ∩ selection|` minus one skipped attempt for each
subset query whose file is missing. -/
def claimedAttemptCount (env : PhaseEnv) (queries_to_run : Option (List ℕ))
    (warmup_iterations : ℕ) : ℕ :=
  warmup_iterations * (warmupSelection queries_to_run).length
    - ((warmupSelection queries_to_run).filter
        fun q => !env.present q).length

/-! ### Adaptive warmup (`warmup_queries` of `warmup_tpch.py`, lines
58–128) -/

/-- Environment of the adaptive warmup: file presence, per-attempt
execution success, and the Memory Probe readings in sampling order. -/
structure AdaptiveEnv where
  present : ℕ → Bool
  execOk : ℕ → Bool
  probe : ℕ → ℚ

/-- Counters threading through the adaptive warmup: executed attempts and
probe samples taken so far. -/
structure AdaptiveState where
  execIdx : ℕ
  sampleIdx : ℕ
deriving DecidableEq

/-- Events of the adaptive warmup.  `sampleCheck` is a probe reading that
the code compares against the 95% threshold (per-query and round-end
checks); `sampleFinal` is the uncompared reading taken after all rounds. -/
inductive WEvent
  | skipQ (q : ℕ)
  | execQ (q : ℕ)
  | failQ (q : ℕ)
  | rollbackEv
  | commitEv
  | sampleCheck (v : ℚ)
  | sampleFinal (v : ℚ)
deriving DecidableEq

/-- The 95% early-exit threshold `target_memory_gb * 0.95`. -/
def memThreshold (target : ℚ) : ℚ := target * (95 / 100)

/-- One query of the adaptive warmup (lines 76–105): skip a missing file;
on success, sample the probe and return early when the threshold is met
(closing the cursor and committing, lines 97–101); on failure, roll back
without sampling. -/
def adaptiveQueryStep (env : AdaptiveEnv) (target : ℚ) (st : AdaptiveState)
    (q : ℕ) : List WEvent × AdaptiveState × Bool :=
  if env.present q = false then ([.skipQ q], st, false)
  else if env.execOk st.execIdx then
    if memThreshold target ≤ env.probe st.sampleIdx then
      ([.execQ q, .sampleCheck (env.probe st.sampleIdx), .commitEv],
        ⟨st.execIdx + 1, st.sampleIdx + 1⟩, true)
    else
      ([.execQ q, .sampleCheck (env.probe st.sampleIdx)],
        ⟨st.execIdx + 1, st.sampleIdx + 1⟩, false)
  else
    ([.execQ q, .failQ q, .rollbackEv], ⟨st.execIdx + 1, st.sampleIdx⟩, false)

/-- The inner query loop of one adaptive round, stopping at an early
exit. -/
def adaptiveRoundQueries (env : AdaptiveEnv) (target : ℚ) :
    List ℕ → AdaptiveState → List WEvent × AdaptiveState × Bool
  | [], st => ([], st, false)
  | q :: qs, st =>
    if (adaptiveQueryStep env target st q).2.2 then
      adaptiveQueryStep env target st q
    else
      ((adaptiveQueryStep env target st q).1
          ++ (adaptiveRoundQueries env target qs
              (adaptiveQueryStep env target st q).2.1).1,
        (adaptiveRoundQueries env target qs
          (adaptiveQueryStep env target st q).2.1).2)

/-- The round-end tail (lines 107–114): after the query loop, commit, then
sample and check the threshold once more — unless the loop already exited
early. -/
def adaptiveRoundEnd (env : AdaptiveEnv) (target : ℚ)
    (p : List WEvent × AdaptiveState × Bool) :
    List WEvent × AdaptiveState × Bool :=
  if p.2.2 then p
  else
    (p.1 ++ [.commitEv, .sampleCheck (env.probe p.2.1.sampleIdx)],
      ⟨p.2.1.execIdx, p.2.1.sampleIdx + 1⟩,
      decide (memThreshold target ≤ env.probe p.2.1.sampleIdx))

/-- One adaptive round (lines 73–114). -/
def adaptiveRound (env : AdaptiveEnv) (target : ℚ) (st : AdaptiveState) :
    List WEvent × AdaptiveState × Bool :=
  adaptiveRoundEnd env target
    (adaptiveRoundQueries env target [1, 3, 6, 12, 14] st)

/-- The round loop of the adaptive warmup. -/
def adaptiveRounds (env : AdaptiveEnv) (target : ℚ) :
    ℕ → AdaptiveState → List WEvent × AdaptiveState × Bool
  | 0, st => ([], st, false)
  | r + 1, st =>
    if (adaptiveRound env target st).2.2 then adaptiveRound env target st
    else
      ((adaptiveRound env target st).1
          ++ (adaptiveRounds env target r (adaptiveRound env target st).2.1).1,
        (adaptiveRounds env target r (adaptiveRound env target st).2.1).2)

/-- `warmup_queries` of `warmup_tpch.py` (lines 58–128): run the rounds;
on an early exit return `true`; otherwise take the final (uncompared)
reading and return `false`. -/
def warmup_queries (env : AdaptiveEnv) (warmup_rounds : ℕ)
    (target_memory_gb : ℚ) : Bool × List WEvent :=
  if (adaptiveRounds env target_memory_gb warmup_rounds ⟨0, 0⟩).2.2 then
    (true, (adaptiveRounds env target_memory_gb warmup_rounds ⟨0, 0⟩).1)
  else
    (false, (adaptiveRounds env target_memory_gb warmup_rounds ⟨0, 0⟩).1
      ++ [.sampleFinal (env.probe
          (adaptiveRounds env target_memory_gb warmup_rounds ⟨0, 0⟩).2.1.sampleIdx)])

/-- A trace with no threshold-meeting checked sample. -/
def ColdTrace (th : ℚ) (t : List WEvent) : Prop :=
  ∀ v : ℚ, WEvent.sampleCheck v ∈ t → v < th

/-- Safety of a traced result for claim C3: any split of the trace at a
checked sample meeting the threshold implies the early-exit flag is set
and no execution event follows the sample. -/
def SafeTrace (th : ℚ) (t : List WEvent) (early : Bool) : Prop :=
  ∀ t₁ t₂ : List WEvent, ∀ v : ℚ, t = t₁ ++ WEvent.sampleCheck v :: t₂ →
    th ≤ v → early = true ∧ ∀ q : ℕ, WEvent.execQ q ∉ t₂

/-- The adaptive-warmup environment used as concrete witness input: all
files present, every execution succeeding, and the probe reading 2 GB on
the first sample and 100 GB afterwards. -/
def adaptiveWitnessEnv : AdaptiveEnv where
  present := fun _ => true
  execOk := fun _ => true
  probe := fun k => if k = 0 then 2 else 100

/-- The outcome `run_tpch_queries` records for an executed query. -/
def outcomeOf (env : ExecEnv) (q : ℕ) : Outcome :=
  match env.execRes q with
  | .ok n => ⟨env.elapsed q, n, true, none⟩
  | .error e => ⟨0, 0, false, some e⟩

/-- Fixed-warmup environment with the file of query 1 missing, used as the
concrete input refuting claim C7's literal count. -/
def phaseMissingEnv : PhaseEnv where
  present := fun q => q != 1
  execOk := fun _ => true

/-- Execution-controller environment with the file of query 4 missing,
used as concrete witness input for claim C8. -/
def execWitnessEnv : ExecEnv where
  present := fun q => q != 4
  execRes := fun q => .ok q
  elapsed := fun _ => 0

/-- Execution-controller environment in which exactly query 2 fails, used
as concrete witness input for claim C2. -/
def isoWitnessEnv : ExecEnv where
  present := fun _ => true
  execRes := fun q => if q = 2 then .error "boom" else .ok (10 * q)
  elapsed := fun q => q

/-- Adaptive-warmup environment whose first execution attempt fails, used
as concrete witness input for claim C10. -/
def adaptiveFailEnv : AdaptiveEnv where
  present := fun _ => true
  execOk := fun _ => false
  probe := fun _ => 0

/-! ### Line-shape machinery

`splitLines` produces lines in which a newline can occur only as the final
character, and only the last line may lack its newline terminator.  These
shapes are what make the line structure of a text stable under the
tokenwise substitutions of `read_query_file`. -/

/-- A newline-terminated line. -/
def ClosedLine (l : List Char) : Prop := ∃ m, '\n' ∉ m ∧ l = m ++ ['\n']

/-- A non-empty line with no newline at all (a final unterminated line). -/
def OpenLine (l : List Char) : Prop := l ≠ [] ∧ '\n' ∉ l

/-- Well-shaped line lists: every line but the last is closed, the last is
closed or open, and no line is empty. -/
def WfLines : List (List Char) → Prop
  | [] => True
  | [l] => ClosedLine l ∨ OpenLine l
  | l :: l' :: ls => ClosedLine l ∧ WfLines (l' :: ls)

/-- An induction principle matching the two-step recursion of
`replaceTok` and `hasTok`. -/
theorem twoStepInduction {motive : List Char → Prop} (h0 : motive [])
    (h1 : ∀ c, motive [c])
    (h2 : ∀ c d rest, motive rest → motive (d :: rest) →
      motive (c :: d :: rest)) : ∀ l, motive l
  | [] => h0
  | [c] => h1 c
  | c :: d :: rest =>
    h2 c d rest (twoStepInduction h0 h1 h2 rest)
      (twoStepInduction h0 h1 h2 (d :: rest))

theorem splitLines_eq_nil {s : List Char} : splitLines s = [] ↔ s = [] := by
  constructor
  · intro h
    cases s with
    | nil => rfl
    | cons c rest =>
      rw [splitLines] at h
      by_cases hc : c = '\n'
      · simp [hc] at h
      · simp only [hc, if_false] at h
        cases hr : splitLines rest <;> simp [hr] at h
  · intro h; subst h; rfl

theorem flatten_splitLines : ∀ s : List Char, (splitLines s).flatten = s := by
  intro s
  induction s with
  | nil => rfl
  | cons c rest ih =>
    rw [splitLines]
    by_cases hc : c = '\n'
    · simp [hc, List.flatten] at ih ⊢; exact ih
    · simp only [hc, if_false]
      cases hr : splitLines rest with
      | nil =>
        have : rest = [] := splitLines_eq_nil.mp hr
        simp [this]
      | cons l ls =>
        rw [hr] at ih
        simpa [List.flatten] using ih

theorem wf_splitLines : ∀ s : List Char, WfLines (splitLines s) := by
  intro s
  induction s with
  | nil => trivial
  | cons c rest ih =>
    rw [splitLines]
    by_cases hc : c = '\n'
    · simp only [hc, if_pos rfl]
      cases hr : splitLines rest with
      | nil => exact Or.inl ⟨[], by simp⟩
      | cons l ls =>
        rw [hr] at ih
        exact ⟨⟨[], by simp⟩, ih⟩
    · have hc' : ¬('\n' = c) := fun h => hc h.symm
      simp only [hc, if_false]
      cases hr : splitLines rest with
      | nil => exact Or.inr ⟨by simp, by simp [hc']⟩
      | cons l ls =>
        rw [hr] at ih
        cases ls with
        | nil =>
          rcases ih with hcl | hop
          · rcases hcl with ⟨m, hm, rfl⟩
            exact Or.inl ⟨c :: m, by simp [hc', hm], by simp⟩
          · exact Or.inr ⟨by simp, by simp [hc', hop.2]⟩
        | cons l' ls' =>
          obtain ⟨hcl, hwf⟩ := ih
          rcases hcl with ⟨m, hm, rfl⟩
          exact ⟨⟨c :: m, by simp [hc', hm], by simp⟩, hwf⟩

theorem wf_filter (p : List Char → Bool) :
    ∀ ls : List (List Char), WfLines ls → WfLines (ls.filter p) := by
  intro ls
  induction ls with
  | nil => intro _; trivial
  | cons l ls ih =>
    intro hwf
    have hl : ClosedLine l ∨ OpenLine l := by
      cases ls with
      | nil => exact hwf
      | cons l' ls' => exact Or.inl hwf.1
    have hrest : WfLines ls := by
      cases ls with
      | nil => trivial
      | cons l' ls' => exact hwf.2
    by_cases hp : p l = true
    · rw [List.filter_cons_of_pos hp]
      cases hfl : ls.filter p with
      | nil => exact hl
      | cons g gs =>
        have hcl : ClosedLine l := by
          rcases hl with h | h
          · exact h
          · -- an open line can only be the last line; since some line of `ls`
            -- survives the filter, `ls` is non-empty, so `l` is closed
            cases ls with
            | nil => simp at hfl
            | cons l' ls' => exact hwf.1
        exact ⟨hcl, hfl ▸ ih hrest⟩
    · rw [List.filter_cons_of_neg (by simpa using hp)]
      exact ih hrest

/-! ### Substitution lemmas -/

theorem replaceTok_cons_ne {a b c : Char} (n r : List Char) (hc : c ≠ a) :
    replaceTok a b n (c :: r) = c :: replaceTok a b n r := by
  cases r with
  | nil => rfl
  | cons d rest => rw [replaceTok]; simp [hc]

theorem replaceTok_skip {a b : Char} (n : List Char) :
    ∀ w t : List Char, (∀ x ∈ w, x ≠ a) →
      replaceTok a b n (w ++ t) = w ++ replaceTok a b n t := by
  intro w
  induction w with
  | nil => intro t _; rfl
  | cons x w ih =>
    intro t hw
    rw [List.cons_append, replaceTok_cons_ne _ _ (hw x (by simp)),
      ih t (fun y hy => hw y (by simp [hy])), List.cons_append]

theorem mem_replaceTok {a b c : Char} {n : List Char} :
    ∀ {l : List Char}, c ∈ replaceTok a b n l → c ∈ l ∨ c ∈ n := by
  intro l
  induction l using twoStepInduction with
  | h0 => intro h; simp [replaceTok] at h
  | h1 e => intro h; simp [replaceTok] at h; simp [h]
  | h2 e d rest ih ih2 =>
    intro h
    rw [replaceTok] at h
    by_cases he : e = a ∧ d = b
    · rw [if_pos he] at h
      rcases List.mem_append.mp h with h | h
      · exact Or.inr h
      · rcases ih h with h | h
        · exact Or.inl (by simp [h])
        · exact Or.inr h
    · rw [if_neg he] at h
      rcases List.mem_cons.mp h with h | h
      · exact Or.inl (by simp [h])
      · rcases ih2 h with h | h
        · exact Or.inl (by simp [List.mem_cons.mp h])
        · exact Or.inr h

theorem replaceTok_ne_nil {a b : Char} {n : List Char} (hn : n ≠ []) :
    ∀ {l : List Char}, l ≠ [] → replaceTok a b n l ≠ [] := by
  intro l
  induction l using twoStepInduction with
  | h0 => intro h; exact absurd rfl h
  | h1 e => intro _; simp [replaceTok]
  | h2 e d rest ih ih2 =>
    intro _
    rw [replaceTok]
    by_cases he : e = a ∧ d = b
    · rw [if_pos he]; simpa using fun h _ => hn h
    · rw [if_neg he]; simp

theorem head?_replaceTok {a b : Char} {n : List Char} (hn : n ≠ []) :
    ∀ l : List Char, (replaceTok a b n l).head? = l.head? ∨
      (replaceTok a b n l).head? = n.head? := by
  intro l
  cases l with
  | nil => exact Or.inl rfl
  | cons c r =>
    cases r with
    | nil => exact Or.inl rfl
    | cons d rest =>
      rw [replaceTok]
      by_cases he : c = a ∧ d = b
      · rw [if_pos he]
        cases n with
        | nil => exact absurd rfl hn
        | cons m ms => exact Or.inr rfl
      · rw [if_neg he]; exact Or.inl rfl

theorem replaceTok_append {a b : Char} (n : List Char) (ha : a ≠ '\n')
    (hb : b ≠ '\n') :
    ∀ l : List Char, l.getLast? = some '\n' → ∀ s : List Char,
      replaceTok a b n (l ++ s) = replaceTok a b n l ++ replaceTok a b n s := by
  intro l
  induction l using twoStepInduction with
  | h0 => intro h; simp at h
  | h1 c =>
    intro h s
    simp only [List.getLast?_singleton, Option.some.injEq] at h
    subst h
    cases s with
    | nil => simp [replaceTok]
    | cons d rest =>
      rw [List.singleton_append, replaceTok_cons_ne _ _ (fun h => ha h.symm)]
      rfl
  | h2 c d rest ih ih2 =>
    intro h s
    have hlast : (d :: rest).getLast? = some '\n' := by
      rw [← List.getLast?_cons_cons]; exact h
    rw [List.cons_append, List.cons_append, replaceTok, replaceTok]
    by_cases he : c = a ∧ d = b
    · rw [if_pos he, if_pos he]
      have hrest : rest ≠ [] := by
        intro hr
        subst hr
        simp only [List.getLast?_singleton, Option.some.injEq] at hlast
        exact hb (he.2 ▸ hlast)
      have hrl : rest.getLast? = some '\n' := by
        cases rest with
        | nil => exact absurd rfl hrest
        | cons e es => rw [← List.getLast?_cons_cons]; exact hlast
      rw [ih hrl s, List.append_assoc]
    · have h2 := ih2 hlast s
      rw [List.cons_append] at h2
      rw [if_neg he, if_neg he, h2]
      rfl

theorem replaceTok_closed {a b : Char} {n : List Char}
    (hb : b ≠ '\n') (hn : '\n' ∉ n) :
    ∀ m : List Char, '\n' ∉ m →
      ∃ m', '\n' ∉ m' ∧ replaceTok a b n (m ++ ['\n']) = m' ++ ['\n'] := by
  intro m
  induction m using twoStepInduction with
  | h0 => intro _; exact ⟨[], by simp, rfl⟩
  | h1 c =>
    intro hm
    refine ⟨[c], by simpa using hm, ?_⟩
    rw [List.singleton_append, replaceTok]
    have : ¬(c = a ∧ '\n' = b) := fun h => hb h.2.symm
    rw [if_neg this]
    rfl
  | h2 c d rest ih ih2 =>
    intro hm
    have hc : '\n' ≠ c := fun h => hm (by simp [← h])
    have hd : '\n' ≠ d := fun h => hm (by simp [← h])
    have hrest : '\n' ∉ rest := fun h => hm (by simp [h])
    rw [List.cons_append, List.cons_append, replaceTok]
    by_cases he : c = a ∧ d = b
    · rw [if_pos he]
      obtain ⟨m', hm', heq⟩ := ih hrest
      refine ⟨n ++ m', by simp [hn, hm'], ?_⟩
      rw [heq, List.append_assoc]
    · rw [if_neg he]
      have : '\n' ∉ d :: rest := by simp [hd, hrest]
      obtain ⟨m', hm', heq⟩ := ih2 this
      refine ⟨c :: m', by simp [hc, hm'], ?_⟩
      rw [List.cons_append] at heq
      rw [heq]
      rfl

theorem replaceTok_eq_self {a b : Char} {n : List Char} :
    ∀ {l : List Char}, hasTok a b l = false → replaceTok a b n l = l := by
  intro l
  induction l using twoStepInduction with
  | h0 => intro _; rfl
  | h1 c => intro _; rfl
  | h2 c d rest ih ih2 =>
    intro h
    rw [hasTok] at h
    simp only [Bool.or_eq_false_iff] at h
    rw [replaceTok, if_neg (by simpa using h.1), ih2 h.2]

/-! ### Stripping lemmas -/

theorem dropWhile_append_all {p : Char → Bool} :
    ∀ {w t : List Char}, (∀ x ∈ w, p x = true) →
      List.dropWhile p (w ++ t) = List.dropWhile p t := by
  intro w
  induction w with
  | nil => intro t _; rfl
  | cons x w ih =>
    intro t hw
    rw [List.cons_append, List.dropWhile_cons, if_pos (hw x (by simp))]
    exact ih fun y hy => hw y (by simp [hy])

theorem dropWhile_append_single {p : Char → Bool} {c : Char}
    (hc : p c = false) :
    ∀ w : List Char, List.dropWhile p (w ++ [c]) = List.dropWhile p w ++ [c] := by
  intro w
  induction w with
  | nil => simp [List.dropWhile_cons, hc]
  | cons x w ih =>
    rw [List.cons_append, List.dropWhile_cons, List.dropWhile_cons]
    by_cases hx : p x = true
    · rw [if_pos hx, if_pos hx, ih]
    · simp only [hx, if_false]
      rfl

theorem stripRight_cons {c : Char} (hc : pyIsSpace c = false) (r : List Char) :
    stripRight (c :: r) = c :: stripRight r := by
  rw [stripRight, stripRight, List.reverse_cons, dropWhile_append_single hc,
    List.reverse_append]
  rfl

theorem stripRight_eq_nil_iff {r : List Char} :
    stripRight r = [] ↔ ∀ x ∈ r, pyIsSpace x = true := by
  rw [stripRight, List.reverse_eq_nil_iff, List.dropWhile_eq_nil_iff]
  constructor
  · intro h x hx; exact h x (by simpa using hx)
  · intro h x hx; exact h x (by simpa using hx)

theorem stripRight_head? {r : List Char} (h : stripRight r ≠ []) :
    (stripRight r).head? = r.head? := by
  obtain ⟨u, hu⟩ := List.dropWhile_suffix (l := r.reverse) pyIsSpace
  have hr : r = stripRight r ++ u.reverse := by
    conv_lhs => rw [← List.reverse_reverse r, ← hu]
    rw [List.reverse_append]
    rfl
  conv_rhs => rw [hr]
  rw [List.head?_append_of_ne_nil _ h]

theorem dropWhile_head_not {p : Char → Bool} :
    ∀ {l : List Char} {c : Char} {r : List Char},
      List.dropWhile p l = c :: r → p c = false := by
  intro l
  induction l with
  | nil => intro c r h; simp at h
  | cons x xs ih =>
    intro c r h
    rw [List.dropWhile_cons] at h
    by_cases hx : p x = true
    · rw [if_pos hx] at h; exact ih h
    · rw [if_neg hx] at h
      injection h with h1 _
      rw [← h1]
      simpa using hx

/-! ### `keepLine` facts -/

theorem startsWith_cons {x c : Char} {ps t : List Char} :
    startsWith (x :: ps) (c :: t) = ((x == c) && startsWith ps t) := by
  simp [startsWith, List.isPrefixOf]

theorem startsWith_single_head {x : Char} {t : List Char} :
    startsWith [x] t = true ↔ t.head? = some x := by
  cases t with
  | nil => simp [startsWith, List.isPrefixOf]
  | cons c r =>
    rw [startsWith_cons]
    simp only [startsWith, List.isPrefixOf, Bool.and_true, beq_iff_eq,
      List.head?_cons, Option.some.injEq]
    exact eq_comm

theorem keepLine_eq (l : List Char) :
    keepLine l = (!(pyStrip l).isEmpty && !startsWith [':'] (pyStrip l)
      && (!startsWith ['\x7b'] (pyStrip l)
        && !startsWith ['-', '-'] (pyStrip l))) := by
  rw [keepLine]
  cases h1 : (!(pyStrip l).isEmpty && !startsWith [':'] (pyStrip l)) with
  | false => rw [if_neg (by decide), Bool.false_and]
  | true =>
    rw [if_pos rfl, Bool.true_and]
    cases h2 : (!startsWith ['\x7b'] (pyStrip l)
        && !startsWith ['-', '-'] (pyStrip l)) with
    | false => rw [if_neg (by decide)]
    | true => rw [if_pos rfl]

/-- A kept line, after a `:`-token substitution whose replacement text does
not begin with `-`, is still kept. -/
theorem keepLine_replaceTok {b : Char} {n : List Char} (hn : n ≠ [])
    (hnd : n.head? ≠ some '-') {l : List Char} (h : keepLine l = true) :
    keepLine (replaceTok ':' b n l) = true := by
  rw [keepLine_eq] at h
  simp only [Bool.and_eq_true, Bool.not_eq_true'] at h
  obtain ⟨⟨hne, hcol⟩, hbra, hdash⟩ := h
  -- decompose `l` into leading whitespace and the rest
  cases hd : List.dropWhile pyIsSpace l with
  | nil =>
    exfalso
    rw [pyStrip, hd] at hne
    simp [stripRight] at hne
  | cons c r =>
    have hcsp : pyIsSpace c = false := dropWhile_head_not hd
    have hlsplit : l = List.takeWhile pyIsSpace l ++ (c :: r) := by
      rw [← hd, List.takeWhile_append_dropWhile]
    have hps : pyStrip l = c :: stripRight r := by
      rw [pyStrip, hd, stripRight_cons hcsp]
    -- the head character is not a colon
    have hcne : c ≠ ':' := by
      intro hcc
      rw [hps, startsWith_cons, hcc] at hcol
      simp [startsWith, List.isPrefixOf] at hcol
    -- substitution leaves the leading whitespace and head character alone
    have hsub : replaceTok ':' b n l
        = List.takeWhile pyIsSpace l ++ (c :: replaceTok ':' b n r) := by
      conv_lhs => rw [hlsplit]
      rw [replaceTok_skip n _ _ ?hw, replaceTok_cons_ne _ _ hcne]
      case hw =>
        intro x hx
        have hxs := List.mem_takeWhile_imp hx
        intro hxc
        rw [hxc] at hxs
        simp [pyIsSpace] at hxs
    have hps' : pyStrip (replaceTok ':' b n l)
        = c :: stripRight (replaceTok ':' b n r) := by
      rw [hsub, pyStrip,
        dropWhile_append_all (fun x hx => List.mem_takeWhile_imp hx),
        List.dropWhile_cons, if_neg (by simp [hcsp]), stripRight_cons hcsp]
    have hcne' : (':' == c) = false := by
      cases hcc : (':' == c) with
      | false => rfl
      | true => exact absurd (eq_of_beq hcc).symm hcne
    have g1 : startsWith [':'] (c :: stripRight (replaceTok ':' b n r))
        = false := by
      rw [startsWith_cons, hcne', Bool.false_and]
    have hbrc : ('\x7b' == c) = false := by
      rw [hps, startsWith_cons] at hbra
      simpa [startsWith, List.isPrefixOf] using hbra
    have g2 : startsWith ['\x7b'] (c :: stripRight (replaceTok ':' b n r))
        = false := by
      rw [startsWith_cons, hbrc, Bool.false_and]
    have g3 : startsWith ['-', '-'] (c :: stripRight (replaceTok ':' b n r))
        = false := by
      rw [startsWith_cons]
      by_cases hcd : c = '-'
      · subst hcd
        have hrdash : startsWith ['-'] (stripRight r) = false := by
          rw [hps, startsWith_cons] at hdash
          simpa using hdash
        have key : startsWith ['-'] (stripRight (replaceTok ':' b n r))
            = false := by
          cases hsw : startsWith ['-'] (stripRight (replaceTok ':' b n r)) with
          | false => rfl
          | true =>
            exfalso
            have hsr : (stripRight (replaceTok ':' b n r)).head? = some '-' :=
              startsWith_single_head.mp hsw
            have hnz : stripRight (replaceTok ':' b n r) ≠ [] := by
              intro hnil; rw [hnil] at hsr; simp at hsr
            have hhead : (replaceTok ':' b n r).head? = some '-' := by
              rw [← stripRight_head? hnz]; exact hsr
            rcases head?_replaceTok hn r with hcase | hcase
            · have hr0 : r.head? = some '-' := by rw [← hcase]; exact hhead
              cases r with
              | nil => simp at hr0
              | cons r0 rs =>
                simp only [List.head?_cons, Option.some.injEq] at hr0
                subst hr0
                have hsrr : stripRight ('-' :: rs) ≠ [] := by
                  rw [Ne, stripRight_eq_nil_iff]
                  intro hall
                  have h2 := hall '-' (by simp)
                  simp [pyIsSpace] at h2
                have hh := stripRight_head? hsrr
                have hsw2 : startsWith ['-'] (stripRight ('-' :: rs))
                    = true := by
                  rw [startsWith_single_head, hh]; simp
                rw [hsw2] at hrdash
                simp at hrdash
            · exact hnd (by rw [← hcase]; exact hhead)
        rw [key, Bool.and_false]
      · have hcd' : ('-' == c) = false := by
          cases hcc : ('-' == c) with
          | false => rfl
          | true => exact absurd (eq_of_beq hcc).symm hcd
        rw [hcd', Bool.false_and]
    rw [keepLine_eq, hps', g1, g2, g3]
    simp

/-! ### Line structure of the normalized text -/

theorem getLast?_closed {l : List Char} (h : ClosedLine l) :
    l.getLast? = some '\n' := by
  obtain ⟨m, _, rfl⟩ := h
  exact List.getLast?_concat m

theorem replaceTok_open {a b : Char} {n : List Char} (hn : n ≠ [])
    (hn' : '\n' ∉ n) {l : List Char} (h : OpenLine l) :
    OpenLine (replaceTok a b n l) := by
  refine ⟨replaceTok_ne_nil hn h.1, fun hmem => ?_⟩
  rcases mem_replaceTok hmem with hc | hc
  · exact h.2 hc
  · exact hn' hc

theorem replaceTok_closedLine {a b : Char} {n : List Char} (hb : b ≠ '\n')
    (hn' : '\n' ∉ n) {l : List Char} (h : ClosedLine l) :
    ClosedLine (replaceTok a b n l) := by
  obtain ⟨m, hm, rfl⟩ := h
  obtain ⟨m', hm', heq⟩ := replaceTok_closed hb hn' m hm
  exact ⟨m', hm', heq⟩

theorem wf_map_replaceTok {a b : Char} {n : List Char} (hb : b ≠ '\n')
    (hn' : '\n' ∉ n) (hn : n ≠ []) :
    ∀ ls : List (List Char), WfLines ls →
      WfLines (ls.map (replaceTok a b n)) := by
  intro ls
  induction ls with
  | nil => intro _; trivial
  | cons l ls ih =>
    intro hwf
    cases ls with
    | nil =>
      rcases hwf with hcl | hop
      · exact Or.inl (replaceTok_closedLine hb hn' hcl)
      · exact Or.inr (replaceTok_open hn hn' hop)
    | cons l' ls' =>
      exact ⟨replaceTok_closedLine hb hn' hwf.1, ih hwf.2⟩

theorem replaceTok_flatten {a b : Char} {n : List Char} (ha : a ≠ '\n')
    (hb : b ≠ '\n') :
    ∀ ls : List (List Char), WfLines ls →
      replaceTok a b n ls.flatten = (ls.map (replaceTok a b n)).flatten := by
  intro ls
  induction ls with
  | nil => intro _; rfl
  | cons l ls ih =>
    intro hwf
    cases ls with
    | nil => simp [List.flatten]
    | cons l' ls' =>
      have hcl : ClosedLine l := hwf.1
      have ihh := ih hwf.2
      simp only [List.flatten_cons, List.map_cons] at ihh ⊢
      rw [replaceTok_append n ha hb l (getLast?_closed hcl), ihh]

theorem splitLines_closed_append {m : List Char} (hm : '\n' ∉ m) :
    ∀ s : List Char, splitLines ((m ++ ['\n']) ++ s)
      = (m ++ ['\n']) :: splitLines s := by
  induction m with
  | nil => intro s; rw [List.nil_append, List.singleton_append, splitLines,
      if_pos rfl]
  | cons c mm ih =>
    intro s
    have hc : ¬(c = '\n') := fun h => hm (by simp [h])
    have hmm : '\n' ∉ mm := fun h => hm (by simp [h])
    rw [List.cons_append, List.cons_append, splitLines, if_neg hc,
      ih hmm s]

theorem splitLines_open {l : List Char} (hne : l ≠ []) (hnl : '\n' ∉ l) :
    splitLines l = [l] := by
  induction l with
  | nil => exact absurd rfl hne
  | cons c r ih =>
    have hc : ¬(c = '\n') := fun h => hnl (by simp [h])
    rw [splitLines, if_neg hc]
    cases r with
    | nil => rfl
    | cons d rr =>
      rw [ih (by simp) (fun h => hnl (by simp [h]))]

theorem splitLines_flatten_of_wf :
    ∀ ls : List (List Char), WfLines ls → splitLines ls.flatten = ls := by
  intro ls
  induction ls with
  | nil => intro _; rfl
  | cons l ls ih =>
    intro hwf
    cases ls with
    | nil =>
      rw [List.flatten_cons, List.flatten_nil, List.append_nil]
      rcases hwf with hcl | hop
      · obtain ⟨m, hm, rfl⟩ := hcl
        have := splitLines_closed_append hm []
        rwa [List.append_nil] at this
      · exact splitLines_open hop.1 hop.2
    | cons l' ls' =>
      obtain ⟨m, hm, rfl⟩ := hwf.1
      rw [List.flatten_cons, splitLines_closed_append hm, ih hwf.2]

theorem read_query_file_eq (text : List Char) :
    read_query_file text
      = substTokens ((splitLines text).filter keepLine).flatten := rfl

/-- Structural description of the normalized text: it is the flatten of a
well-shaped list of lines, each of which passes the line filter, and
`splitLines` recovers exactly those lines. -/
theorem read_query_file_decomp (x : List Char) :
    ∃ fs : List (List Char), WfLines fs ∧ (∀ l ∈ fs, keepLine l = true) ∧
      read_query_file x = fs.flatten ∧
      splitLines (read_query_file x) = fs := by
  have hcol : (':' : Char) ≠ '\n' := by decide
  have h1 : ('1' : Char) ≠ '\n' := by decide
  have h2 : ('2' : Char) ≠ '\n' := by decide
  have h3 : ('3' : Char) ≠ '\n' := by decide
  have hn90 : ('\n' : Char) ∉ ['9', '0'] := by decide
  have hn15 : ('\n' : Char) ∉ ['1', '5'] := by decide
  have hn3 : ('\n' : Char) ∉ ['3'] := by decide
  have hne90 : (['9', '0'] : List Char) ≠ [] := by decide
  have hne15 : (['1', '5'] : List Char) ≠ [] := by decide
  have hne3 : (['3'] : List Char) ≠ [] := by decide
  set ls0 := (splitLines x).filter keepLine with hls0
  have hwf0 : WfLines ls0 := wf_filter keepLine _ (wf_splitLines x)
  set ls1 := ls0.map (replaceTok ':' '1' ['9', '0']) with hls1
  set ls2 := ls1.map (replaceTok ':' '2' ['1', '5']) with hls2
  set ls3 := ls2.map (replaceTok ':' '3' ['3']) with hls3
  have hwf1 : WfLines ls1 := wf_map_replaceTok h1 hn90 hne90 _ hwf0
  have hwf2 : WfLines ls2 := wf_map_replaceTok h2 hn15 hne15 _ hwf1
  have hwf3 : WfLines ls3 := wf_map_replaceTok h3 hn3 hne3 _ hwf2
  have hflat : read_query_file x = ls3.flatten := by
    rw [read_query_file_eq, substTokens,
      replaceTok_flatten hcol h1 _ hwf0,
      replaceTok_flatten hcol h2 _ hwf1,
      replaceTok_flatten hcol h3 _ hwf2]
  refine ⟨ls3, hwf3, ?_, hflat, by rw [hflat, splitLines_flatten_of_wf _ hwf3]⟩
  intro l hl
  rw [hls3] at hl
  obtain ⟨l2, hl2, rfl⟩ := List.mem_map.mp hl
  rw [hls2] at hl2
  obtain ⟨l1, hl1, rfl⟩ := List.mem_map.mp hl2
  rw [hls1] at hl1
  obtain ⟨l0, hl0, rfl⟩ := List.mem_map.mp hl1
  have hk0 : keepLine l0 = true := (List.mem_filter.mp hl0).2
  have hk1 := @keepLine_replaceTok '1' ['9', '0'] hne90 (by decide) l0 hk0
  have hk2 := @keepLine_replaceTok '2' ['1', '5'] hne15 (by decide) _ hk1
  exact @keepLine_replaceTok '3' ['3'] hne3 (by decide) _ hk2

/-- Normalizing an already-normalized text only re-runs the substitutions:
the line filter keeps every line of a normalized text. -/
theorem read_query_file_second_pass (x : List Char) :
    read_query_file (read_query_file x) = substTokens (read_query_file x) := by
  obtain ⟨fs, _, hkeep, hflat, hsplit⟩ := read_query_file_decomp x
  rw [read_query_file_eq (read_query_file x), hsplit,
    List.filter_eq_self.mpr hkeep, ← hflat]

/-- Claim C5, counterexample: normalization is not idempotent.  On the
template text `x::2` the first pass yields `x:15` (the `:2`→`15`
substitution creates a fresh `:1` token), and the second pass turns that
into `x905`. -/
theorem C5_counterexample :
    read_query_file (read_query_file ['x', ':', ':', '2'])
      ≠ read_query_file ['x', ':', ':', '2'] := by decide

/-- Claim C5 (corrected): normalization is idempotent on every template
text whose normalized form contains none of the three placeholder tokens
`:1`, `:2`, `:3`. -/
theorem C5_idempotent_amended (x : List Char)
    (h1 : hasTok ':' '1' (read_query_file x) = false)
    (h2 : hasTok ':' '2' (read_query_file x) = false)
    (h3 : hasTok ':' '3' (read_query_file x) = false) :
    read_query_file (read_query_file x) = read_query_file x := by
  rw [read_query_file_second_pass, substTokens, replaceTok_eq_self h1,
    replaceTok_eq_self h2, replaceTok_eq_self h3]

/-- Witness for C5 (corrected): the text `a:2` normalizes to `a15`, which
contains no placeholder token, and re-normalizing leaves it unchanged. -/
theorem C5_idempotent_witness :
    hasTok ':' '1' (read_query_file ['a', ':', '2']) = false ∧
    hasTok ':' '2' (read_query_file ['a', ':', '2']) = false ∧
    hasTok ':' '3' (read_query_file ['a', ':', '2']) = false ∧
    read_query_file (read_query_file ['a', ':', '2'])
      = read_query_file ['a', ':', '2'] :=
  ⟨by decide, by decide, by decide,
    C5_idempotent_amended ['a', ':', '2'] (by decide) (by decide) (by decide)⟩

/-- Claim C6, counterexample: the source's loader also discards blank
lines, so on `a\n\nb` it returns `a\nb` while the claimed algorithm
(discarding only marker lines) would return `a\n\nb`. -/
theorem C6_counterexample :
    read_query_file ['a', '\n', '\n', 'b']
      ≠ read_query_file_claimed ['a', '\n', '\n', 'b'] := by decide

theorem keepLine_eq_amended (l : List Char) :
    keepLine l = keepLineAmended l := by
  rw [keepLine_eq, keepLineAmended, keepLineClaimed]
  simp [Bool.and_assoc]

/-- Claim C6 (corrected): the loader discards exactly the lines whose
trimmed form is empty or starts with `:`, `\x7b`, or `--`, concatenates
the remaining lines in order, and then applies the literal substitutions
`:1`→`90`, `:2`→`15`, `:3`→`3` in that order. -/
theorem C6_loader_amended (text : List Char) :
    read_query_file text
      = substTokens ((splitLines text).filter keepLineAmended).flatten := by
  rw [read_query_file_eq]
  congr 1
  congr 1
  exact List.filter_congr fun a _ => keepLine_eq_amended a

/-- Claim C9 (implicit): the loader's filter also discards every blank or
whitespace-only line, and consequently the normalized text never contains
a blank line. -/
theorem C9_no_blank_lines (x : List Char) :
    (∀ l : List Char, pyStrip l = [] → keepLine l = false) ∧
    ∀ l ∈ splitLines (read_query_file x), pyStrip l ≠ [] := by
  constructor
  · intro l hl
    rw [keepLine_eq, hl]
    rfl
  · intro l hl
    obtain ⟨fs, _, hkeep, _, hsplit⟩ := read_query_file_decomp x
    rw [hsplit] at hl
    have hk := hkeep l hl
    rw [keepLine_eq] at hk
    intro hnil
    rw [hnil] at hk
    exact absurd hk (by decide)

/-- Witness for C9: the whitespace-only line `" "` is discarded by the
filter, and the sole line of the normalized text `a` is non-blank. -/
theorem C9_no_blank_lines_witness :
    keepLine [' '] = false ∧ pyStrip ['a'] ≠ [] :=
  ⟨(C9_no_blank_lines ['a']).1 [' '] (by decide),
    (C9_no_blank_lines ['a']).2 ['a'] (by decide)⟩

/-! ### Claim C4: instrumentation activation -/

/-- Claim C4, counterexample: a successful activation issues exactly one
execute (the start-of-window call) and one commit — there is no separate
provisioning call, so the claimed two-call/two-commit shape is false. -/
theorem C4_counterexample : ¬ ActivateClaimShape (activate_dcsim none none).1 := by
  rintro ⟨p, s, h⟩
  have hf : (activate_dcsim none none).1.filter isDbCall
      = [SCall.execCall startSimSQL, SCall.commitCall] := rfl
  rw [hf] at h
  simp at h

/-- Claim C4 (corrected): `activate_dcsim` issues the start-of-window call
and then a single commit; on any failure (of the call or of the commit) it
logs and propagates the original error, performing no further session
work, so nothing is left assumed active. -/
theorem C4_activate_amended (commitFail : Option String) (e : String) :
    (activate_dcsim none none).1
        = [.execCall startSimSQL, .commitCall, .curClose] ∧
    (activate_dcsim none none).2 = none ∧
    ((activate_dcsim (some e) commitFail).2 = some e ∧
      SCall.errLog ∈ (activate_dcsim (some e) commitFail).1) ∧
    ((activate_dcsim none (some e)).2 = some e ∧
      SCall.errLog ∈ (activate_dcsim none (some e)).1) := by
  refine ⟨rfl, rfl, ⟨rfl, ?_⟩, ⟨rfl, ?_⟩⟩ <;> simp [activate_dcsim]

/-! ### Claim C1: deactivation always runs -/

/-- Claim C1: whenever the Execution Controller is reached (warmup either
skipped or clean, activation clean) and raises — an injected failure or a
simulated interruption — the end-call `deactivate_dcsim` is invoked
exactly once, the exit code is 1, the reported outcome is the original
exception, and a deactivation failure is logged without replacing that
outcome. -/
theorem C1_deactivation_always (env : MainEnv) (e : Exc)
    (hw : env.skipWarmup = true ∨ env.warmupExc = none)
    (ha : env.activateExc = none) (hr : env.runExc = some e) :
    (main env).2.2.count MEvent.deactCall = 1 ∧
    (main env).1 = 1 ∧
    (main env).2.1 = some e ∧
    ((env.deactExc 0).isSome = true →
      MEvent.deactFailLog ∈ (main env).2.2) := by
  have hcond : ¬(env.skipWarmup = false ∧ env.warmupExc.isSome = true) := by
    rcases hw with h | h
    · intro hc; rw [h] at hc; exact absurd hc.1 (by simp)
    · intro hc; rw [h] at hc; exact absurd hc.2 (by simp)
  have hbody : mainTryBody env
      = ((if env.skipWarmup then [] else [MEvent.warmupCall])
          ++ [MEvent.activateCall, MEvent.runCall], 0, some e) := by
    rw [mainTryBody, if_neg hcond, ha, hr]
  cases hd : env.deactExc 0 with
  | none =>
    have hdea : deactivate_dcsim env 0 = ([MEvent.deactCall], none) := by
      rw [deactivate_dcsim, hd]
    by_cases hs : env.skipWarmup
    all_goals simp [main, hbody, hdea, hs, hd, List.count_cons, List.count_append]
  | some d =>
    have hdea : deactivate_dcsim env 0
        = ([MEvent.deactCall, MEvent.deactFailLog], some d) := by
      rw [deactivate_dcsim, hd]
    by_cases hs : env.skipWarmup
    all_goals simp [main, hbody, hdea, hs, hd, List.count_cons, List.count_append]

/-- Witness for C1 at the concrete environment `mainWitnessEnv`: the
Execution Controller fails with `boom` and every deactivation attempt
fails, yet deactivation is invoked exactly once, the failure is logged,
and the outcome stays `boom` with exit code 1. -/
theorem C1_deactivation_always_witness :
    (main mainWitnessEnv).2.2.count MEvent.deactCall = 1 ∧
    (main mainWitnessEnv).1 = 1 ∧
    (main mainWitnessEnv).2.1 = some (.failure "boom") ∧
    MEvent.deactFailLog ∈ (main mainWitnessEnv).2.2 := by
  have h := C1_deactivation_always mainWitnessEnv (.failure "boom")
    (Or.inr rfl) rfl rfl
  exact ⟨h.1, h.2.1, h.2.2.1, h.2.2.2 rfl⟩

/-! ### Claim C7: fixed-iteration warmup attempt count -/

theorem warmupRoundLoop_count (env : PhaseEnv) :
    ∀ (sub : List ℕ) (k : ℕ),
      (warmupRoundLoop env sub k).1.countP isExecAttempt
        = (sub.filter env.present).length := by
  intro sub
  induction sub with
  | nil => intro k; rfl
  | cons q qs ih =>
    intro k
    rw [warmupRoundLoop]
    by_cases hp : env.present q = true
    · by_cases ho : env.execOk k = true
      · simp [warmupQueryStep, hp, ho, List.countP_append, ih,
          List.countP_cons, isExecAttempt, List.filter_cons]
      · simp [warmupQueryStep, hp, ho, List.countP_append, ih,
          List.countP_cons, isExecAttempt, List.filter_cons]
    · have hp' : env.present q = false := by simpa using hp
      simp [warmupQueryStep, hp', List.countP_append, ih, List.filter_cons]

theorem warmupIterLoop_count (env : PhaseEnv) (sub : List ℕ) :
    ∀ (i k : ℕ), (warmupIterLoop env sub i k).countP isExecAttempt
      = i * (sub.filter env.present).length := by
  intro i
  induction i with
  | zero => intro k; simp [warmupIterLoop]
  | succ i ih =>
    intro k
    rw [warmupIterLoop]
    simp only [List.countP_append, warmupRoundLoop_count, ih,
      List.countP_cons]
    simp [isExecAttempt, Nat.succ_mul, Nat.add_comm]

/-- Claim C7, counterexample: with `iterations = 2` and the file of query
1 missing, the code makes `2 × 4 = 8` attempts, while the claimed count
`2 × 5` minus one skipped attempt for the missing query is 9. -/
theorem C7_counterexample :
    (warmup_phase phaseMissingEnv none 2).countP isExecAttempt
      ≠ claimedAttemptCount phaseMissingEnv none 2 := by decide

/-- Claim C7 (corrected): the fixed-iteration warmup performs exactly
`iterations × |{q ∈ subset ∩ selection : file of q present}|` execution
attempts — each missing file is skipped once per iteration — and in
particular, with `iterations = 2` and all five representative queries
present and selected, exactly 10 attempts occur. -/
theorem C7_attempt_count (env : PhaseEnv) (queries_to_run : Option (List ℕ))
    (warmup_iterations : ℕ) :
    (warmup_phase env queries_to_run warmup_iterations).countP isExecAttempt
      = warmup_iterations
        * ((warmupSelection queries_to_run).filter env.present).length ∧
    (warmup_phase ⟨fun _ => true, fun _ => true⟩ none 2).countP isExecAttempt
      = 10 := by
  exact ⟨warmupIterLoop_count env (warmupSelection queries_to_run)
    warmup_iterations 0, by decide⟩

/-! ### Claims C8 and C2: the execution controller -/

theorem dictInsert_not_mem {k : ℕ} {v : Outcome} :
    ∀ {l : List (ℕ × Outcome)}, (∀ p ∈ l, p.1 ≠ k) →
      dictInsert k v l = l ++ [(k, v)] := by
  intro l
  induction l with
  | nil => intro _; rfl
  | cons p rest ih =>
    intro h
    rw [dictInsert, if_neg (h p (by simp)), ih fun p hp => h p (by simp [hp])]
    rfl

theorem runQueriesLoop_results (env : ExecEnv) :
    ∀ (qs : List ℕ) (acc : List (ℕ × Outcome)), qs.Nodup →
      (∀ p ∈ acc, p.1 ∉ qs) →
      (runQueriesLoop env qs acc).1
        = acc ++ (qs.filter env.present).map fun q => (q, outcomeOf env q) := by
  intro qs
  induction qs with
  | nil => intro acc _ _; simp [runQueriesLoop]
  | cons q qs ih =>
    intro acc hnd hacc
    obtain ⟨hqnot, hnd'⟩ := List.nodup_cons.mp hnd
    rw [runQueriesLoop]
    by_cases hp : env.present q = true
    · have hne : ∀ p ∈ acc, p.1 ≠ q :=
        fun p hp' hk => hacc p hp' (hk ▸ List.mem_cons_self q qs)
      have hstep : (runQueryStep env q acc).1
          = acc ++ [(q, outcomeOf env q)] := by
        cases henv : env.execRes q with
        | ok n =>
          have ho : outcomeOf env q = ⟨env.elapsed q, n, true, none⟩ := by
            rw [outcomeOf, henv]
          rw [runQueryStep, if_neg (by simp [hp]), henv, ho]
          exact dictInsert_not_mem hne
        | error e =>
          have ho : outcomeOf env q = ⟨0, 0, false, some e⟩ := by
            rw [outcomeOf, henv]
          rw [runQueryStep, if_neg (by simp [hp]), henv, ho]
          exact dictInsert_not_mem hne
      have haccnew : ∀ p ∈ (runQueryStep env q acc).1, p.1 ∉ qs := by
        intro p hpm
        rw [hstep] at hpm
        rcases List.mem_append.mp hpm with h | h
        · exact fun hin => hacc p h (List.mem_cons_of_mem q hin)
        · have hpq : p = (q, outcomeOf env q) := by simpa using h
          rw [hpq]
          exact hqnot
      rw [ih _ hnd' haccnew, hstep, List.filter_cons, if_pos hp]
      simp
    · have hp' : env.present q = false := by simpa using hp
      have hstep : (runQueryStep env q acc).1 = acc := by
        rw [runQueryStep, if_pos (by simp [hp'])]
      have haccnew : ∀ p ∈ (runQueryStep env q acc).1, p.1 ∉ qs := by
        intro p hpm
        rw [hstep] at hpm
        exact fun hin => hacc p hpm (List.mem_cons_of_mem q hin)
      rw [ih _ hnd' haccnew, hstep, List.filter_cons]
      simp [hp']

theorem runQueriesLoop_warn (env : ExecEnv) :
    ∀ (qs : List ℕ) (acc : List (ℕ × Outcome)) (q : ℕ), q ∈ qs →
      env.present q = false →
      XEvent.warnSkip q ∈ (runQueriesLoop env qs acc).2 := by
  intro qs
  induction qs with
  | nil => intro acc q h; simp at h
  | cons q' qs ih =>
    intro acc q hq hp
    rw [runQueriesLoop]
    rcases List.mem_cons.mp hq with rfl | hmem
    · rw [List.mem_append]
      left
      rw [runQueryStep, if_pos (by simp [hp])]
      simp
    · rw [List.mem_append]
      right
      exact ih _ q hmem hp

theorem runQueriesLoop_rollback (env : ExecEnv) {e : String} :
    ∀ (qs : List ℕ) (acc : List (ℕ × Outcome)) (q : ℕ), q ∈ qs →
      env.present q = true → env.execRes q = .error e →
      XEvent.rollbackEv ∈ (runQueriesLoop env qs acc).2 := by
  intro qs
  induction qs with
  | nil => intro acc q h; simp at h
  | cons q' qs ih =>
    intro acc q hq hp hf
    rw [runQueriesLoop]
    rcases List.mem_cons.mp hq with rfl | hmem
    · rw [List.mem_append]
      left
      rw [runQueryStep, if_neg (by simp [hp]), hf]
      simp
    · rw [List.mem_append]
      right
      exact ih _ q hmem hp hf

theorem lookup_outcomes (env : ExecEnv) :
    ∀ (l : List ℕ), l.Nodup → ∀ j ∈ l, env.present j = true →
      (((l.filter env.present).map fun q => (q, outcomeOf env q)).lookup j)
        = some (outcomeOf env j) := by
  intro l
  induction l with
  | nil => intro _ j h; simp at h
  | cons q l ih =>
    intro hnd j hj hp
    obtain ⟨hqnot, hnd'⟩ := List.nodup_cons.mp hnd
    rw [List.filter_cons]
    rcases List.mem_cons.mp hj with rfl | hmem
    · rw [if_pos hp]
      simp [List.lookup_cons]
    · by_cases hq : env.present q = true
      · rw [if_pos hq]
        have hne : j ≠ q := fun h => hqnot (h ▸ hmem)
        rw [List.map_cons, List.lookup_cons]
        have hbeq : (j == q) = false := by simpa using hne
        rw [hbeq]
        exact ih hnd' j hmem hp
      · rw [if_neg hq]
        exact ih hnd' j hmem hp

/-- Claim C8: with `selection = None` the execution controller processes
exactly the identifiers in `1..22` whose query file is present — each once
and in ascending order (the report's key sequence is exactly the sorted,
duplicate-free list of present identifiers) — and a missing identifier is
skipped with a warning and omitted from the report. -/
theorem C8_default_selection (env : ExecEnv) (q : ℕ) :
    ((run_tpch_queries env none).1.map Prod.fst
        = (List.range' 1 22).filter env.present) ∧
    ((run_tpch_queries env none).1.map Prod.fst).Nodup ∧
    List.Sorted (· < ·) ((run_tpch_queries env none).1.map Prod.fst) ∧
    (q ∈ (run_tpch_queries env none).1.map Prod.fst ↔
      1 ≤ q ∧ q ≤ 22 ∧ env.present q = true) ∧
    (1 ≤ q → q ≤ 22 → env.present q = false →
      XEvent.warnSkip q ∈ (run_tpch_queries env none).2) := by
  have hnd : (List.range' 1 22).Nodup := by decide
  have hres : (run_tpch_queries env none).1
      = ((List.range' 1 22).filter env.present).map
          fun q => (q, outcomeOf env q) := by
    rw [run_tpch_queries]
    exact runQueriesLoop_results env _ [] hnd (by simp)
  have hkeys : (run_tpch_queries env none).1.map Prod.fst
      = (List.range' 1 22).filter env.present := by
    rw [hres]
    induction (List.range' 1 22).filter env.present with
    | nil => rfl
    | cons a l ih => simp only [List.map_cons, ih]
  have hsorted : List.Sorted (· < ·) ((List.range' 1 22).filter env.present) :=
    List.Pairwise.filter _ (List.pairwise_lt_range' 1 22)
  refine ⟨hkeys, ?_, ?_, ?_, ?_⟩
  · rw [hkeys]
    exact List.Nodup.filter _ hnd
  · rw [hkeys]
    exact hsorted
  · rw [hkeys, List.mem_filter, List.mem_range'_1]
    constructor
    · rintro ⟨⟨h1, h2⟩, h3⟩
      exact ⟨h1, by omega, h3⟩
    · rintro ⟨h1, h2, h3⟩
      exact ⟨⟨h1, by omega⟩, h3⟩
  · intro h1 h2 h3
    rw [run_tpch_queries]
    exact runQueriesLoop_warn env _ [] q
      (List.mem_range'_1.mpr ⟨h1, by omega⟩) h3

/-- Witness for C8 at the concrete environment `execWitnessEnv` (file of
query 4 missing): the report keys are exactly the present identifiers in
order, and query 4 is warned about. -/
theorem C8_default_selection_witness :
    ((run_tpch_queries execWitnessEnv none).1.map Prod.fst
        = (List.range' 1 22).filter execWitnessEnv.present) ∧
    XEvent.warnSkip 4 ∈ (run_tpch_queries execWitnessEnv none).2 :=
  ⟨(C8_default_selection execWitnessEnv 4).1,
    (C8_default_selection execWitnessEnv 4).2.2.2.2 (by decide) (by decide)
      (by decide)⟩

/-- Claim C2: if query `k` (requested and present) raises an execution
error while every other query succeeds, the report holds the Failed
outcome with the error description for `k`, a Success outcome for every
other requested present query, an entry for every requested present query
(the run is never aborted), and the session was rolled back. -/
theorem C2_per_query_isolation (env : ExecEnv) (qs : List ℕ) (k : ℕ)
    (e : String) (hnd : qs.Nodup) (hk : k ∈ qs) (hpk : env.present k = true)
    (hfail : env.execRes k = .error e)
    (hok : ∀ j, j ≠ k → ∃ n, env.execRes j = .ok n) :
    ((run_tpch_queries env (some qs)).1.lookup k
        = some ⟨0, 0, false, some e⟩) ∧
    (∀ j ∈ qs, j ≠ k → env.present j = true →
      ∃ n, env.execRes j = .ok n ∧
        (run_tpch_queries env (some qs)).1.lookup j
          = some ⟨env.elapsed j, n, true, none⟩) ∧
    (∀ j ∈ qs, env.present j = true →
      ((run_tpch_queries env (some qs)).1.lookup j).isSome = true) ∧
    XEvent.rollbackEv ∈ (run_tpch_queries env (some qs)).2 := by
  have hres : (run_tpch_queries env (some qs)).1
      = ((qs.filter env.present).map fun q => (q, outcomeOf env q)) := by
    rw [run_tpch_queries]
    exact runQueriesLoop_results env _ [] hnd (by simp)
  have hlook : ∀ j ∈ qs, env.present j = true →
      (run_tpch_queries env (some qs)).1.lookup j
        = some (outcomeOf env j) := by
    intro j hj hp
    rw [hres]
    exact lookup_outcomes env qs hnd j hj hp
  refine ⟨?_, ?_, ?_, ?_⟩
  · rw [hlook k hk hpk, outcomeOf, hfail]
  · intro j hj hne hp
    obtain ⟨n, hn⟩ := hok j hne
    exact ⟨n, hn, by rw [hlook j hj hp, outcomeOf, hn]⟩
  · intro j hj hp
    rw [hlook j hj hp]
    rfl
  · rw [run_tpch_queries]
    exact runQueriesLoop_rollback env qs [] k hk hpk hfail

/-- Witness for C2 at the concrete environment `isoWitnessEnv` with
selection `[1, 2, 3]`: query 2 fails with `boom`, queries 1 and 3 succeed,
and the session is rolled back. -/
theorem C2_per_query_isolation_witness :
    ((run_tpch_queries isoWitnessEnv (some [1, 2, 3])).1.lookup 2
        = some ⟨0, 0, false, some "boom"⟩) ∧
    XEvent.rollbackEv ∈ (run_tpch_queries isoWitnessEnv (some [1, 2, 3])).2 := by
  have h := C2_per_query_isolation isoWitnessEnv [1, 2, 3] 2 "boom"
    (by decide) (by decide) rfl rfl
    (fun j hj => ⟨10 * j, by simp [isoWitnessEnv, hj]⟩)
  exact ⟨h.1, h.2.2.2⟩

/-! ### Claims C3 and C10: the adaptive warmup -/

theorem safeTrace_of_cold {th : ℚ} {t : List WEvent} {e : Bool}
    (h : ColdTrace th t) : SafeTrace th t e := by
  intro t₁ t₂ v hsplit hv
  exfalso
  have hm : WEvent.sampleCheck v ∈ t := by rw [hsplit]; simp
  exact absurd hv (not_le.mpr (h v hm))

theorem coldTrace_append {th : ℚ} {t₁ t₂ : List WEvent}
    (h₁ : ColdTrace th t₁) (h₂ : ColdTrace th t₂) :
    ColdTrace th (t₁ ++ t₂) := by
  intro v hv
  rcases List.mem_append.mp hv with h | h
  · exact h₁ v h
  · exact h₂ v h

theorem safeTrace_append {th : ℚ} {ev₁ ev₂ : List WEvent} {e : Bool}
    (h₁ : ColdTrace th ev₁) (h₂ : SafeTrace th ev₂ e) :
    SafeTrace th (ev₁ ++ ev₂) e := by
  intro t₁ t₂ v hsplit hv
  rcases List.append_eq_append_iff.mp hsplit.symm with ⟨a', ha1, ha2⟩
    | ⟨c', hc1, hc2⟩
  · cases a' with
    | nil =>
      rw [List.nil_append] at ha2
      exact h₂ [] t₂ v (by rw [List.nil_append, ← ha2]) hv
    | cons x a'' =>
      exfalso
      rw [List.cons_append] at ha2
      injection ha2 with hx hrest
      have hmem : WEvent.sampleCheck v ∈ ev₁ := by
        rw [ha1, hx]
        simp
      exact absurd hv (not_le.mpr (h₁ v hmem))
  · exact h₂ c' t₂ v hc2 hv

theorem safeTrace_tail2 {th : ℚ} {e : Bool} (w₁ : WEvent) (v : ℚ)
    (hw₁ : ∀ u : ℚ, w₁ ≠ .sampleCheck u) (he : e = true) :
    SafeTrace th [w₁, .sampleCheck v] e := by
  intro t₁ t₂ u hsplit hu
  refine ⟨he, ?_⟩
  rcases t₁ with _ | ⟨a, t₁'⟩
  · rw [List.nil_append] at hsplit
    injection hsplit with h1 _
    exact absurd h1 (hw₁ u)
  rcases t₁' with _ | ⟨b, t₁''⟩
  · simp only [List.cons_append, List.nil_append] at hsplit
    injection hsplit with h1 hr
    injection hr with h2 hr2
    rw [← hr2]
    intro q'
    simp
  · simp only [List.cons_append] at hsplit
    injection hsplit with h1 hr
    injection hr with h2 hr2
    exact absurd hr2.symm (by simp)

theorem safeTrace_tail3 {th : ℚ} {e : Bool} (w₁ : WEvent) (v : ℚ)
    (w₃ : WEvent) (hw₁ : ∀ u : ℚ, w₁ ≠ .sampleCheck u)
    (hw₃ : ∀ u : ℚ, w₃ ≠ .sampleCheck u)
    (hw₃x : ∀ q : ℕ, w₃ ≠ .execQ q) (he : e = true) :
    SafeTrace th [w₁, .sampleCheck v, w₃] e := by
  intro t₁ t₂ u hsplit hu
  refine ⟨he, ?_⟩
  rcases t₁ with _ | ⟨a, t₁'⟩
  · rw [List.nil_append] at hsplit
    injection hsplit with h1 _
    exact absurd h1 (hw₁ u)
  rcases t₁' with _ | ⟨b, t₁''⟩
  · simp only [List.cons_append, List.nil_append] at hsplit
    injection hsplit with h1 hr
    injection hr with h2 hr2
    rw [← hr2]
    intro q'
    simp only [List.mem_singleton]
    exact fun h => hw₃x q' h.symm
  rcases t₁'' with _ | ⟨c, t⟩
  · simp only [List.cons_append, List.nil_append] at hsplit
    injection hsplit with h1 hr
    injection hr with h2 hr2
    injection hr2 with h3 hr3
    exact absurd h3 (hw₃ u)
  · simp only [List.cons_append] at hsplit
    injection hsplit with h1 hr
    injection hr with h2 hr2
    injection hr2 with h3 hr3
    exact absurd hr3.symm (by simp)

theorem adaptiveQueryStep_safe (env : AdaptiveEnv) (target : ℚ)
    (st : AdaptiveState) (q : ℕ) :
    SafeTrace (memThreshold target) (adaptiveQueryStep env target st q).1
      (adaptiveQueryStep env target st q).2.2 ∧
    ((adaptiveQueryStep env target st q).2.2 = false →
      ColdTrace (memThreshold target) (adaptiveQueryStep env target st q).1) := by
  rw [adaptiveQueryStep]
  by_cases hp : env.present q = false
  · rw [if_pos hp]
    have hcold : ColdTrace (memThreshold target) [WEvent.skipQ q] :=
      fun v hv => absurd hv (by simp)
    exact ⟨safeTrace_of_cold hcold, fun _ => hcold⟩
  · rw [if_neg hp]
    by_cases ho : env.execOk st.execIdx = true
    · rw [if_pos ho]
      by_cases hth : memThreshold target ≤ env.probe st.sampleIdx
      · rw [if_pos hth]
        refine ⟨safeTrace_tail3 _ _ _ ?_ ?_ ?_ rfl, ?_⟩
        · intro u; simp
        · intro u; simp
        · intro q'; simp
        · intro hfalse
          exact absurd hfalse (by simp)
      · rw [if_neg hth]
        have hcold : ColdTrace (memThreshold target)
            [WEvent.execQ q, WEvent.sampleCheck (env.probe st.sampleIdx)] := by
          intro u hu
          have hu' : u = env.probe st.sampleIdx := by simpa using hu
          rw [hu']
          exact lt_of_not_le hth
        exact ⟨safeTrace_of_cold hcold, fun _ => hcold⟩
    · rw [if_neg ho]
      have hcold : ColdTrace (memThreshold target)
          [WEvent.execQ q, WEvent.failQ q, WEvent.rollbackEv] :=
        fun v hv => absurd hv (by simp)
      exact ⟨safeTrace_of_cold hcold, fun _ => hcold⟩

theorem adaptiveRoundQueries_safe (env : AdaptiveEnv) (target : ℚ) :
    ∀ (qs : List ℕ) (st : AdaptiveState),
      SafeTrace (memThreshold target)
        (adaptiveRoundQueries env target qs st).1
        (adaptiveRoundQueries env target qs st).2.2 ∧
      ((adaptiveRoundQueries env target qs st).2.2 = false →
        ColdTrace (memThreshold target)
          (adaptiveRoundQueries env target qs st).1) := by
  intro qs
  induction qs with
  | nil =>
    intro st
    constructor
    · intro t₁ t₂ v hsplit hv
      have hsplit' : ([] : List WEvent) = t₁ ++ WEvent.sampleCheck v :: t₂ :=
        hsplit
      exact absurd hsplit'.symm (by simp)
    · intro _ v hv
      have hv' : WEvent.sampleCheck v ∈ ([] : List WEvent) := hv
      simp at hv' 
  | cons q qs ih =>
    intro st
    rw [adaptiveRoundQueries]
    obtain ⟨hsafe, hcold⟩ := adaptiveQueryStep_safe env target st q
    by_cases hflag : (adaptiveQueryStep env target st q).2.2 = true
    · rw [if_pos hflag]
      exact ⟨hsafe, fun h => absurd (hflag.symm.trans h) (by simp)⟩
    · have hflag' : (adaptiveQueryStep env target st q).2.2 = false := by
        simpa using hflag
      rw [if_neg hflag]
      obtain ⟨hsafe', hcold'⟩ := ih (adaptiveQueryStep env target st q).2.1
      exact ⟨safeTrace_append (hcold hflag') hsafe',
        fun hf => coldTrace_append (hcold hflag') (hcold' hf)⟩

theorem adaptiveRoundEnd_safe (env : AdaptiveEnv) (target : ℚ)
    (p : List WEvent × AdaptiveState × Bool)
    (hsafe : SafeTrace (memThreshold target) p.1 p.2.2)
    (hcold : p.2.2 = false → ColdTrace (memThreshold target) p.1) :
    SafeTrace (memThreshold target) (adaptiveRoundEnd env target p).1
      (adaptiveRoundEnd env target p).2.2 ∧
    ((adaptiveRoundEnd env target p).2.2 = false →
      ColdTrace (memThreshold target) (adaptiveRoundEnd env target p).1) := by
  rw [adaptiveRoundEnd]
  by_cases hflag : p.2.2 = true
  · rw [if_pos hflag]
    exact ⟨hsafe, fun h => absurd (hflag.symm.trans h) (by simp)⟩
  · have hflag' : p.2.2 = false := by simpa using hflag
    rw [if_neg hflag]
    by_cases hth : memThreshold target ≤ env.probe p.2.1.sampleIdx
    · refine ⟨safeTrace_append (hcold hflag')
        (safeTrace_tail2 _ _ (fun u => by simp) (by simp [hth])), ?_⟩
      intro hf
      simp only [decide_eq_false_iff_not] at hf
      exact absurd hth hf
    · have hcoldTail : ColdTrace (memThreshold target)
          [WEvent.commitEv,
            WEvent.sampleCheck (env.probe p.2.1.sampleIdx)] := by
        intro u hu
        have hu' : u = env.probe p.2.1.sampleIdx := by simpa using hu
        rw [hu']
        exact lt_of_not_le hth
      exact ⟨safeTrace_append (hcold hflag') (safeTrace_of_cold hcoldTail),
        fun _ => coldTrace_append (hcold hflag') hcoldTail⟩

theorem adaptiveRound_safe (env : AdaptiveEnv) (target : ℚ)
    (st : AdaptiveState) :
    SafeTrace (memThreshold target) (adaptiveRound env target st).1
      (adaptiveRound env target st).2.2 ∧
    ((adaptiveRound env target st).2.2 = false →
      ColdTrace (memThreshold target) (adaptiveRound env target st).1) := by
  rw [adaptiveRound]
  obtain ⟨hsafe, hcold⟩ :=
    adaptiveRoundQueries_safe env target [1, 3, 6, 12, 14] st
  exact adaptiveRoundEnd_safe env target _ hsafe hcold

theorem adaptiveRounds_safe (env : AdaptiveEnv) (target : ℚ) :
    ∀ (r : ℕ) (st : AdaptiveState),
      SafeTrace (memThreshold target) (adaptiveRounds env target r st).1
        (adaptiveRounds env target r st).2.2 ∧
      ((adaptiveRounds env target r st).2.2 = false →
        ColdTrace (memThreshold target)
          (adaptiveRounds env target r st).1) := by
  intro r
  induction r with
  | zero =>
    intro st
    constructor
    · intro t₁ t₂ v hsplit hv
      have hsplit' : ([] : List WEvent) = t₁ ++ WEvent.sampleCheck v :: t₂ :=
        hsplit
      exact absurd hsplit'.symm (by simp)
    · intro _ v hv
      have hv' : WEvent.sampleCheck v ∈ ([] : List WEvent) := hv
      simp at hv' 
  | succ r ih =>
    intro st
    rw [adaptiveRounds]
    obtain ⟨hsafe, hcold⟩ := adaptiveRound_safe env target st
    by_cases hflag : (adaptiveRound env target st).2.2 = true
    · rw [if_pos hflag]
      exact ⟨hsafe, fun h => absurd (hflag.symm.trans h) (by simp)⟩
    · have hflag' : (adaptiveRound env target st).2.2 = false := by
        simpa using hflag
      rw [if_neg hflag]
      obtain ⟨hsafe', hcold'⟩ := ih (adaptiveRound env target st).2.1
      exact ⟨safeTrace_append (hcold hflag') hsafe',
        fun hf => coldTrace_append (hcold hflag') (hcold' hf)⟩

/-- Claim C3: whenever the adaptive warmup's trace contains a checked
probe sample (per-query or round-end) of at least `target × 0.95`, the
warmup returned `reached = true` and no query execution at all follows
that sample — in particular none in the same round. -/
theorem C3_adaptive_early_exit (env : AdaptiveEnv) (warmup_rounds : ℕ)
    (target : ℚ) (t₁ t₂ : List WEvent) (v : ℚ)
    (hsplit : (warmup_queries env warmup_rounds target).2
      = t₁ ++ WEvent.sampleCheck v :: t₂)
    (hv : memThreshold target ≤ v) :
    (warmup_queries env warmup_rounds target).1 = true ∧
    ∀ q : ℕ, WEvent.execQ q ∉ t₂ := by
  obtain ⟨hsafe, hcold⟩ := adaptiveRounds_safe env target warmup_rounds ⟨0, 0⟩
  rw [warmup_queries] at hsplit ⊢
  by_cases hflag : (adaptiveRounds env target warmup_rounds ⟨0, 0⟩).2.2 = true
  · rw [if_pos hflag] at hsplit ⊢
    exact ⟨rfl, (hsafe t₁ t₂ v hsplit hv).2⟩
  · have hflag' : (adaptiveRounds env target warmup_rounds ⟨0, 0⟩).2.2
        = false := by simpa using hflag
    exfalso
    rw [if_neg hflag] at hsplit
    have hsplit2 : (adaptiveRounds env target warmup_rounds ⟨0, 0⟩).1
          ++ [WEvent.sampleFinal (env.probe
              (adaptiveRounds env target warmup_rounds ⟨0, 0⟩).2.1.sampleIdx)]
        = t₁ ++ WEvent.sampleCheck v :: t₂ := hsplit
    have hmem : WEvent.sampleCheck v
        ∈ (adaptiveRounds env target warmup_rounds ⟨0, 0⟩).1
          ++ [WEvent.sampleFinal (env.probe
              (adaptiveRounds env target warmup_rounds ⟨0, 0⟩).2.1.sampleIdx)] := by
      rw [hsplit2]; simp
    rcases List.mem_append.mp hmem with h | h
    · exact absurd hv (not_le.mpr (hcold hflag' v h))
    · simp at h

/-- Witness for C3 at the concrete environment `adaptiveWitnessEnv` with
target 10 GB: the second sample reads 100 GB, crossing the threshold
mid-round; the warmup reports `reached = true` and the only event after
the crossing sample is the commit. -/
theorem C3_adaptive_early_exit_witness :
    (warmup_queries adaptiveWitnessEnv 1 10).1 = true ∧
    WEvent.execQ 6 ∉ [WEvent.commitEv] := by
  have h := C3_adaptive_early_exit adaptiveWitnessEnv 1 10
    [.execQ 1, .sampleCheck 2, .execQ 3] [.commitEv] 100
    (by norm_num [warmup_queries, adaptiveRounds, adaptiveRound,
      adaptiveRoundEnd, adaptiveRoundQueries, adaptiveQueryStep,
      adaptiveWitnessEnv, memThreshold])
    (by norm_num [memThreshold])
  exact ⟨h.1, h.2 6⟩

/-- Claim C10 (implicit): when a warmup query fails, the Memory Probe is
not sampled for it — the step emits only the attempt, the failure, and the
rollback, leaves the sample counter unchanged, emits no checked sample,
and never triggers the early exit. -/
theorem C10_failed_query_not_sampled (env : AdaptiveEnv) (target : ℚ)
    (st : AdaptiveState) (q : ℕ) (hp : env.present q = true)
    (hf : env.execOk st.execIdx = false) :
    (adaptiveQueryStep env target st q).1
        = [.execQ q, .failQ q, .rollbackEv] ∧
    (adaptiveQueryStep env target st q).2.1.sampleIdx = st.sampleIdx ∧
    (∀ v : ℚ, WEvent.sampleCheck v ∉ (adaptiveQueryStep env target st q).1) ∧
    (adaptiveQueryStep env target st q).2.2 = false := by
  rw [adaptiveQueryStep, if_neg (by simp [hp]), if_neg (by simp [hf])]
  refine ⟨rfl, rfl, ?_, rfl⟩
  intro v
  simp

/-- Witness for C10 at the concrete environment `adaptiveFailEnv`: the
first attempt of query 1 fails, no sample is taken, and the early-exit
flag stays off. -/
theorem C10_failed_query_not_sampled_witness :
    (adaptiveQueryStep adaptiveFailEnv 128 ⟨0, 0⟩ 1).1
        = [.execQ 1, .failQ 1, .rollbackEv] ∧
    (adaptiveQueryStep adaptiveFailEnv 128 ⟨0, 0⟩ 1).2.1.sampleIdx = 0 ∧
    WEvent.sampleCheck 100 ∉ (adaptiveQueryStep adaptiveFailEnv 128 ⟨0, 0⟩ 1).1 ∧
    (adaptiveQueryStep adaptiveFailEnv 128 ⟨0, 0⟩ 1).2.2 = false := by
  have h := C10_failed_query_not_sampled adaptiveFailEnv 128 ⟨0, 0⟩ 1 rfl rfl
  exact ⟨h.1, h.2.1, h.2.2.1 100, h.2.2.2⟩

end TpchDbgen
